import Mathlib

/-!
Shallow embedding of the MEMENTO Q&A passage retriever
(`model/Q&A/elasticsearch.py` and `model/Q&A/retrieval.py`), together with
proofs about its text normalization, corpus loading, sparse (TF-IDF)
ranking and Elasticsearch-delegated retrieval paths.

Strings are modelled as `List Char`; real-valued scores are modelled as
integers (any linearly ordered ring supports the claims proved here); Python exceptions (failed `assert`, `IndexError`, a missing
document, an implicit `return None`) are modelled by `Option`/`none`.
-/

/-- Whitespace as matched by Python's regex `\s` on `str` patterns: the ASCII
whitespace characters together with the Unicode whitespace codepoints. -/
def pyWs (c : Char) : Bool :=
  c = ' ' || c = '\t' || c = '\n' || c = '\r' || c = '\x0b' || c = '\x0c' ||
  c = '\x1c' || c = '\x1d' || c = '\x1e' || c = '\x1f' || c = '\x85' ||
  c = '\xa0' || c.val = 0x1680 || (0x2000 ≤ c.val && c.val ≤ 0x200a) ||
  c.val = 0x2028 || c.val = 0x2029 || c.val = 0x202f || c.val = 0x205f ||
  c.val = 0x3000

/-- The character allow-list of `preprocess`'s fourth substitution on
`elasticsearch.py:50`.  The source line holds TWO adjacent string literals
(the ASCII quote after `”` closes the raw literal and the next one reopens a
plain literal), which Python concatenates, so the parsed character class is
`[^A-Za-z0-9가-힣.?!,()~‘’“”:%&《》〈〉''㈜·\-'+\s一-龥]` and contains NO ASCII
double-quote: Latin letters, digits, the Hangul syllable block U+AC00 to
U+D7A3, the listed punctuation codepoints (the curly quotes U+2018, U+2019,
U+201C, U+201D but not the ASCII quote U+0022), any `\s` whitespace, and the
CJK ideograph range U+4E00 to U+9FA5.  A character NOT in this set is
deleted. -/
def allowedChar (c : Char) : Bool :=
  ('A' ≤ c && c ≤ 'Z') || ('a' ≤ c && c ≤ 'z') || ('0' ≤ c && c ≤ '9') ||
  (0xac00 ≤ c.val && c.val ≤ 0xd7a3) ||
  c = '.' || c = '?' || c = '!' || c = ',' || c = '(' || c = ')' || c = '~' ||
  c.val = 0x2018 || c.val = 0x2019 || c.val = 0x201c || c.val = 0x201d ||
  c = ':' || c = '%' || c = '&' ||
  c.val = 0x300a || c.val = 0x300b || c.val = 0x3008 || c.val = 0x3009 ||
  c = '\'' || c.val = 0x321c || c.val = 0xb7 || c = '-' || c = '+' ||
  pyWs c || (0x4e00 ≤ c.val && c.val ≤ 0x9fa5)

/-- First substitution of `preprocess`: `re.sub(r"\n", " ", text)` replaces
every newline character by a space. -/
def subNewline (l : List Char) : List Char :=
  l.map fun c => if c = '\n' then ' ' else c

/-- Second substitution of `preprocess`: `re.sub(r"\\n", " ", text)` replaces
every occurrence of the two-character sequence backslash-n by one space,
scanning left to right without overlap. -/
def subBackslashN : List Char → List Char
  | '\\' :: 'n' :: rest => ' ' :: subBackslashN rest
  | c :: rest => c :: subBackslashN rest
  | [] => []

/-- Third substitution of `preprocess`: `re.sub(r"#", " ", text)` replaces
every hash character by a space. -/
def subHash (l : List Char) : List Char :=
  l.map fun c => if c = '#' then ' ' else c

/-- Fourth substitution of `preprocess`: delete the characters outside the
allow-list. -/
def filterAllowed (l : List Char) : List Char :=
  l.filter allowedChar

/-- Fifth substitution of `preprocess`: `re.sub(r"\s+", " ", text)` replaces
every maximal run of whitespace by a single space.  Recursion from the right:
a whitespace character whose (already collapsed) tail begins with the space
standing for the rest of its run is absorbed into that space, otherwise it
becomes the single space standing for its run. -/
def collapseWs : List Char → List Char
  | [] => []
  | c :: rest =>
    let t := collapseWs rest
    if pyWs c then (if t.head? = some ' ' then t else ' ' :: t)
    else c :: t

/-- Leading half of Python's `str.strip()`: drop leading whitespace. -/
def lstrip (l : List Char) : List Char := l.dropWhile pyWs

/-- Trailing half of Python's `str.strip()`: drop trailing whitespace. -/
def rstrip : List Char → List Char
  | [] => []
  | c :: r =>
    match rstrip r with
    | [] => if pyWs c then [] else [c]
    | d :: t => c :: d :: t

/-- Python's `str.strip()`: drop leading and trailing whitespace. -/
def pyStrip (l : List Char) : List Char := rstrip (lstrip l)

/-- Embedding of `preprocess(text)` of `model/Q&A/elasticsearch.py`: the five substitutions
in source order, the last one followed by `.strip()`. -/
def preprocess (l : List Char) : List Char :=
  pyStrip (collapseWs (filterAllowed (subHash (subBackslashN (subNewline l)))))

/-- Helper for `pyDedup`, carrying the set of keys seen so far. -/
def pyDedupAux {α : Type} [DecidableEq α] (seen : List α) : List α → List α
  | [] => []
  | x :: r =>
    if x ∈ seen then pyDedupAux seen r
    else x :: pyDedupAux (x :: seen) r

/-- Embedding of `list(dict.fromkeys(xs))`: keep the first occurrence of every element, in
first-seen order. -/
def pyDedup {α : Type} [DecidableEq α] (l : List α) : List α :=
  pyDedupAux [] l

/-- Embedding of `load_json(dataset_path)` of `model/Q&A/elasticsearch.py`, with the parsed
JSON mapping passed in as an association list (key, text): deduplicate the raw
`text` values first-seen with `dict.fromkeys`, THEN apply `preprocess` to each
survivor.  (The returned corpus entries are the `document_text` payloads.) -/
def load_json (wiki : List (String × List Char)) : List (List Char) :=
  let texts := pyDedup (wiki.map (fun v => v.2))
  texts.map preprocess

/-- Dot product of two vectors, one entry of `query_vec * p_embedding.T`.
Scores (IEEE floats in the code) are modelled over `ℤ`; every ranking claim
below only uses ordered-ring structure, never division or rounding. -/
def dot (v w : List ℤ) : ℤ := (List.zipWith (· * ·) v w).sum

/-- Embedding of `np.argsort(v)`: the indices of `v` sorted by ascending value (modelled
with a stable insertion sort; NumPy does not fix a tie order, and no claim
depends on one). Out-of-range indices never occur; `getD` supplies a
default. -/
def argsortAsc (v : List ℤ) : List Nat :=
  (List.range v.length).insertionSort (fun i j => v.getD i 0 ≤ v.getD j 0)

/-- The state of `SparseRetrieval` relevant to ranking: the fitted
vectorizer's `transform` on a single query (a row of TF-IDF weights) and the
passage-embedding matrix `p_embedding` (one row of weights per context). -/
structure SparseRetrieval where
  transform : String → List ℤ
  p_embedding : List (List ℤ)

/-- Embedding of `SparseRetrieval.get_relevant_doc(query, k)`: transform the query, assert
`np.sum(query_vec) != 0` (a zero sum models the failed assertion, returned as
`none`), score every passage by dot product, argsort descending
(`np.argsort(...)[::-1]`), and return the top-k scores and indices. -/
def SparseRetrieval.get_relevant_doc (r : SparseRetrieval) (query : String)
    (k : Nat) : Option (List ℤ × List Nat) :=
  let query_vec := r.transform query
  if query_vec.sum = 0 then none
  else
    let result := r.p_embedding.map (fun row => dot query_vec row)
    let sorted_result := (argsortAsc result).reverse
    some ((sorted_result.map (fun i => result.getD i 0)).take k,
          sorted_result.take k)

/-- Embedding of `SparseRetrieval.get_relevant_doc_bulk(queries, k)`: transform all queries
into a matrix, assert the matrix sum is nonzero, then per row argsort
descending and take the top-k scores and indices, appending row by row. -/
def SparseRetrieval.get_relevant_doc_bulk (r : SparseRetrieval)
    (queries : List String) (k : Nat) :
    Option (List (List ℤ) × List (List Nat)) :=
  let query_vecs := queries.map r.transform
  if (query_vecs.map List.sum).sum = 0 then none
  else
    let rows := query_vecs.map (fun qv => r.p_embedding.map (fun row => dot qv row))
    some (rows.map (fun result =>
            ((argsortAsc result).reverse.map (fun i => result.getD i 0)).take k),
          rows.map (fun result => (argsortAsc result).reverse.take k))

/-- The in-memory state touched by `SparseRetrieval.get_sparse_embedding`:
the contexts, the vectorizer and the (initially absent) passage embedding.
The vectorizer and embedding types are abstract; `fit_transform` is the
external library call that builds the embedding from the corpus. -/
structure EmbedState (Model Emb : Type) where
  contexts : List (List Char)
  tfidfv : Model
  p_embedding : Option Emb

/-- The two pickle files at `emd_path` and `tfidfv_path`: `none` models an
absent file. -/
structure ArtifactStore (Model Emb : Type) where
  emd_file : Option Emb
  tfidfv_file : Option Model

/-- Embedding of `SparseRetrieval.get_sparse_embedding()`: when BOTH pickle files exist,
load them into the state (no rebuild, no writes); otherwise fit-transform the
contexts and write both pickles. -/
def get_sparse_embedding {Model Emb : Type}
    (fit_transform : Model → List (List Char) → Emb)
    (st : EmbedState Model Emb) (fs : ArtifactStore Model Emb) :
    EmbedState Model Emb × ArtifactStore Model Emb :=
  match fs.emd_file, fs.tfidfv_file with
  | some e, some t => ({ st with p_embedding := some e, tfidfv := t }, fs)
  | _, _ =>
    let e := fit_transform st.tfidfv st.contexts
    ({ st with p_embedding := some e },
     { emd_file := some e, tfidfv_file := some st.tfidfv })

/-- One Elasticsearch hit as consumed by the retriever: `_score`, `_id`, and
`_source.document_text`. -/
structure Hit where
  score : ℤ
  id : String
  text : String
deriving DecidableEq

/-- An entry of the bulk path's `doc_indices` list.  Because the code appends
raw hit ids AND whole per-query lists into the same Python list, the list is
heterogeneous; this sum type carries both shapes. -/
inductive IdxEntry where
  | id (s : String)
  | lst (l : List String)
deriving DecidableEq

/-- Embedding of `ElasticRetrieval.get_relevant_doc(query, k)`: run `es_search` (modelled
by the abstract hit function `es`), and collect the hits' scores, ids and
sources.  Zero hits yield empty lists, never an error. -/
def ElasticRetrieval.get_relevant_doc (es : String → Nat → List Hit)
    (query : String) (k : Nat) : List ℤ × List String × List Hit :=
  let docs := es query k
  (docs.map Hit.score, docs.map Hit.id, docs)

/-- Embedding of `ElasticRetrieval.get_relevant_doc_bulk(queries, k)` exactly as written:
per query, the hit SCORES go into a fresh `doc_score` list which is appended
to `doc_scores`, but the hit IDS are appended directly to the outer
`doc_indices` (`doc_indices.append(hit['_id'])`), after which the untouched
empty `doc_index` list is appended too — so `doc_indices` interleaves raw ids
with empty lists instead of holding one id list per query. -/
def ElasticRetrieval.get_relevant_doc_bulk (es : String → Nat → List Hit)
    (queries : List String) (k : Nat) :
    List (List ℤ) × List IdxEntry × List (List Hit) :=
  (queries.map (fun q => (es q k).map Hit.score),
   (queries.map (fun q =>
      ((es q k).map (fun h => IdxEntry.id h.id)) ++ [IdxEntry.lst []])).flatten,
   queries.map (fun q => es q k))

/-- Embedding of `ElasticRetrieval.retrieve(query, topk)` on a single string query: get the
relevant documents, then return
`(doc_scores, [doc_indices[i] for i in range(topk)])`.  The comprehension
indexes `doc_indices[i]` for every `i < topk`, so when fewer than `topk` hits
were returned it raises `IndexError` (modelled as `none`). -/
def ElasticRetrieval.retrieve (es : String → Nat → List Hit) (query : String)
    (topk : Nat) : Option (List ℤ × List String) :=
  let r := ElasticRetrieval.get_relevant_doc es query topk
  match (List.range topk).mapM (fun i => r.2.1[i]?) with
  | some ids => some (r.1, ids)
  | none => none

/-- One row of the query dataset: `question`, `id`, and the optional
ground-truth `context`/`answers` columns. -/
structure QAExample where
  question : String
  id : String
  context : Option String
  answers : Option String
deriving DecidableEq

/-- One output record of `ElasticRetrieval.retrieve_split`: note that both
`id` and `context_id` are set to `doc_indices[i]`, an entry of the bulk
path's heterogeneous `doc_indices` list. -/
structure SplitRecord where
  question : String
  id : IdxEntry
  context_id : IdxEntry
  context : String
  original_context : Option String
  answers : Option String
deriving DecidableEq

/-- Embedding of `ElasticRetrieval.retrieve_split(dataset, topk)` exactly as written: after
the bulk search, the `for idx, example` loop builds the records for
`idx = 0` — `retrieved_context` from the first query's `docs[0]` capped at
`topk`, one record per retrieved context with `doc_indices[i]` as both `id`
and `context_id` — and then RETURNS the dataframe from inside the loop body,
so later examples are never processed.  An empty dataset skips the loop and
falls through to an implicit `return None`; an out-of-range `doc_indices[i]`
raises `IndexError`; both are modelled as `none`. -/
def ElasticRetrieval.retrieve_split (es : String → Nat → List Hit)
    (dataset : List QAExample) (topk : Nat) : Option (List SplitRecord) :=
  let r := ElasticRetrieval.get_relevant_doc_bulk es
    (dataset.map QAExample.question) topk
  let doc_indices := r.2.1
  let docs := r.2.2
  match dataset with
  | [] => none
  | e :: _ =>
    let retrieved_context := ((docs.headD []).take topk).map Hit.text
    retrieved_context.enum.mapM (fun p => do
      let di ← doc_indices[p.1]?
      pure { question := e.question, id := di, context_id := di,
             context := p.2,
             original_context :=
               match e.context, e.answers with
               | some c, some _ => some c
               | _, _ => none,
             answers :=
               match e.context, e.answers with
               | some _, some a => some a
               | _, _ => none })

/-- The Elasticsearch index as seen by `delete_doc`: an association list from
document id to `document_text`.  `esGet` models `es.get` (raising, i.e.
`none`, when the id is absent), `esExists` models `es.exists`, and `esDelete`
models `es.delete`. -/
def esGet (idx : List (String × String)) (doc_id : String) : Option String :=
  (idx.find? (fun p => p.1 == doc_id)).map Prod.snd

/-- Embedding of `es.exists(index, id)`. -/
def esExists (idx : List (String × String)) (doc_id : String) : Bool :=
  (idx.find? (fun p => p.1 == doc_id)).isSome

/-- Embedding of `es.delete(index, id)`: remove the document with the given id. -/
def esDelete (idx : List (String × String)) (doc_id : String) :
    List (String × String) :=
  idx.filter (fun p => !(p.1 == doc_id))

/-- Embedding of `delete_doc(es, index_name, doc_id)` of `model/Q&A/elasticsearch.py`:
FIRST fetch the document with `es.get` (which raises when the id is absent,
modelled as `none`), then check `es.exists` — deleting when it holds, printing
a notice otherwise — and finally return the fetched document's text together
with the resulting index. -/
def delete_doc (idx : List (String × String)) (doc_id : String) :
    Option (List (String × String) × String) :=
  match esGet idx doc_id with
  | none => none
  | some text =>
    if esExists idx doc_id then some (esDelete idx doc_id, text)
    else some (idx, text)

/-! ## Properties of the first-seen deduplication -/

theorem mem_pyDedupAux {α : Type} [DecidableEq α] {x : α} :
    ∀ {l seen : List α}, x ∈ pyDedupAux seen l → x ∈ l ∧ x ∉ seen := by
  intro l
  induction l with
  | nil => intro seen h; simp [pyDedupAux] at h
  | cons a r ih =>
    intro seen h
    by_cases ha : a ∈ seen
    · simp only [pyDedupAux, if_pos ha] at h
      rcases ih h with ⟨h1, h2⟩
      exact ⟨List.mem_cons_of_mem _ h1, h2⟩
    · simp only [pyDedupAux, if_neg ha] at h
      rcases List.mem_cons.mp h with rfl | h'
      · exact ⟨List.mem_cons_self _ _, ha⟩
      · rcases ih h' with ⟨h1, h2⟩
        exact ⟨List.mem_cons_of_mem _ h1,
               fun hs => h2 (List.mem_cons_of_mem _ hs)⟩

theorem mem_pyDedupAux_of {α : Type} [DecidableEq α] {x : α} :
    ∀ {l seen : List α}, x ∈ l → x ∉ seen → x ∈ pyDedupAux seen l := by
  intro l
  induction l with
  | nil => intro seen h; cases h
  | cons a r ih =>
    intro seen hx hs
    by_cases ha : a ∈ seen
    · simp only [pyDedupAux, if_pos ha]
      rcases List.mem_cons.mp hx with rfl | h'
      · exact absurd ha hs
      · exact ih h' hs
    · simp only [pyDedupAux, if_neg ha]
      rcases List.mem_cons.mp hx with rfl | h'
      · exact List.mem_cons_self _ _
      · by_cases hxa : x = a
        · subst hxa; exact List.mem_cons_self _ _
        · exact List.mem_cons_of_mem _
            (ih h' (by simp [List.mem_cons, hxa, hs]))

theorem pyDedupAux_sublist {α : Type} [DecidableEq α] :
    ∀ (l seen : List α), (pyDedupAux seen l).Sublist l := by
  intro l
  induction l with
  | nil => intro seen; simp [pyDedupAux]
  | cons a r ih =>
    intro seen
    by_cases ha : a ∈ seen
    · simp only [pyDedupAux, if_pos ha]
      exact (ih seen).cons _
    · simp only [pyDedupAux, if_neg ha]
      exact (ih (a :: seen)).cons₂ _

theorem pyDedupAux_nodup {α : Type} [DecidableEq α] :
    ∀ (l seen : List α), (pyDedupAux seen l).Nodup := by
  intro l
  induction l with
  | nil => intro seen; simp [pyDedupAux]
  | cons a r ih =>
    intro seen
    by_cases ha : a ∈ seen
    · simpa only [pyDedupAux, if_pos ha] using ih seen
    · simp only [pyDedupAux, if_neg ha]
      exact List.nodup_cons.mpr
        ⟨fun hmem => (mem_pyDedupAux hmem).2 (List.mem_cons_self a seen),
         ih (a :: seen)⟩

/-! ## Concrete instances used by counterexamples and witnesses -/

/-- A two-query external store with one hit per query, exhibiting the bulk
id-list bug. -/
def esTwoQueries : String → Nat → List Hit := fun q _ =>
  if q = "q1" then [⟨10, "d1", "t1"⟩] else [⟨7, "d2", "t2"⟩]

/-- An external store returning zero matches for every query. -/
def esNoHits : String → Nat → List Hit := fun _ _ => []

/-- A raw source whose two texts differ only in whitespace, so they are
distinct raw but identical after normalization. -/
def wikiDup : List (String × List Char) :=
  [("k1", "a b".toList), ("k2", "a  b".toList)]

/-! ## Claim theorems -/

/-- C1 (code_bug evidence): on a two-query bulk retrieval with one hit per
query, the `doc_indices` component returned by
`ElasticRetrieval.get_relevant_doc_bulk` is NOT one id-sequence per query
(which would have two entries, `["d1"]` and `["d2"]`): it is the four-entry
flat interleaving of raw ids with the never-filled per-query lists, because
the loop appends each `hit['_id']` to the outer `doc_indices` instead of the
inner `doc_index`. -/
theorem c1_bulk_ids_not_aligned :
    (ElasticRetrieval.get_relevant_doc_bulk esTwoQueries ["q1", "q2"] 5).2.1 =
      [IdxEntry.id "d1", IdxEntry.lst [], IdxEntry.id "d2", IdxEntry.lst []] ∧
    (ElasticRetrieval.get_relevant_doc_bulk esTwoQueries
        ["q1", "q2"] 5).2.1.length ≠ 2 := by
  decide

/-- C4 (code_bug evidence): for a query with zero matches,
`ElasticRetrieval.get_relevant_doc` does return three empty sequences without
error, but `ElasticRetrieval.retrieve` with `topk = 1` then evaluates
`[doc_indices[i] for i in range(topk)]`, whose out-of-range `doc_indices[0]`
raises `IndexError` (modelled `none`) instead of returning an empty result
sequence. -/
theorem c4_zero_match_retrieve_raises :
    ElasticRetrieval.get_relevant_doc esNoHits "q" 1 = ([], [], []) ∧
    ElasticRetrieval.retrieve esNoHits "q" 1 = none := by
  exact ⟨rfl, rfl⟩

/-- C6 counterexample: on a source whose two raw texts normalize to the same
text, the loaded corpus contains that normalized text twice, so it is not
true that each distinct normalized text occurs exactly once. -/
theorem c6_counterexample :
    load_json wikiDup = ["a b".toList, "a b".toList] ∧
    ¬ (load_json wikiDup).Nodup := by
  decide

/-- C6 (amended): `load_json` deduplicates the RAW texts (first occurrence
wins, original order preserved — the deduplicated list is a nodup sublist of
the raw texts containing every raw text) and only then applies `preprocess`
to each survivor; texts identical only after normalization are therefore kept
separately. -/
theorem c6_dedup_raw_then_normalize (wiki : List (String × List Char)) :
    load_json wiki = (pyDedup (wiki.map (fun v => v.2))).map preprocess ∧
    (pyDedup (wiki.map (fun v => v.2))).Nodup ∧
    (pyDedup (wiki.map (fun v => v.2))).Sublist (wiki.map (fun v => v.2)) ∧
    ∀ t, t ∈ pyDedup (wiki.map (fun v => v.2)) ↔ t ∈ wiki.map (fun v => v.2) := by
  refine ⟨rfl, pyDedupAux_nodup _ _, pyDedupAux_sublist _ _, fun t => ⟨?_, ?_⟩⟩
  · exact fun h => (mem_pyDedupAux h).1
  · exact fun h => mem_pyDedupAux_of h (List.not_mem_nil t)

/-- C7: `get_sparse_embedding` rebuilds from the corpus and persists BOTH
artifacts whenever either pickle file is absent (no failure), and when both
are present it loads them into the state without rebuilding and without
writing. -/
theorem c7_embedding_cache (Model Emb : Type)
    (fit_transform : Model → List (List Char) → Emb)
    (st : EmbedState Model Emb) (fs : ArtifactStore Model Emb) :
    (fs.emd_file = none ∨ fs.tfidfv_file = none →
      get_sparse_embedding fit_transform st fs =
        ({ st with p_embedding := some (fit_transform st.tfidfv st.contexts) },
         { emd_file := some (fit_transform st.tfidfv st.contexts),
           tfidfv_file := some st.tfidfv })) ∧
    (∀ e t, fs.emd_file = some e → fs.tfidfv_file = some t →
      get_sparse_embedding fit_transform st fs =
        ({ st with p_embedding := some e, tfidfv := t }, fs)) := by
  constructor
  · intro h
    unfold get_sparse_embedding
    rcases h with h | h
    · rw [h]
    · rw [h]
      cases fs.emd_file <;> rfl
  · intro e t he ht
    unfold get_sparse_embedding
    rw [he, ht]

/-- Witness for C7 at concrete states: a missing embedding pickle triggers the
rebuild-and-persist path, while two present pickles are loaded verbatim. -/
theorem c7_witness :
    get_sparse_embedding (fun (_ : Nat) (_ : List (List Char)) => (7 : Nat))
        ⟨[], 0, none⟩ ⟨none, some 3⟩ =
      (⟨[], 0, some 7⟩, ⟨some 7, some 0⟩) ∧
    get_sparse_embedding (fun (_ : Nat) (_ : List (List Char)) => (7 : Nat))
        ⟨[], 0, none⟩ ⟨some 5, some 3⟩ =
      (⟨[], 3, some 5⟩, ⟨some 5, some 3⟩) :=
  ⟨(c7_embedding_cache Nat Nat (fun _ _ => 7) ⟨[], 0, none⟩
      ⟨none, some 3⟩).1 (Or.inl rfl),
   (c7_embedding_cache Nat Nat (fun _ _ => 7) ⟨[], 0, none⟩
      ⟨some 5, some 3⟩).2 5 3 rfl rfl⟩

/-- C8: `delete_doc` fetches the document with `es.get` BEFORE its own
existence check, so an absent id raises there (`none`) and the no-op branch
is unreachable for absent ids; for a present id the document is deleted and
its text returned. -/
theorem c8_delete_doc_fetch_first (idx : List (String × String))
    (did : String) :
    (esGet idx did = none → delete_doc idx did = none) ∧
    (∀ t, esGet idx did = some t →
      delete_doc idx did = some (esDelete idx did, t)) := by
  constructor
  · intro h
    unfold delete_doc
    rw [h]
  · intro t h
    have hex : esExists idx did = true := by
      unfold esExists
      unfold esGet at h
      rcases hf : List.find? (fun p => p.1 == did) idx with _ | p
      · rw [hf] at h; simp at h
      · rw [hf]; rfl
    unfold delete_doc
    rw [h]
    simp [hex]

/-- Witness for C8: deleting an absent id errors out of the fetch; deleting a
present id removes it and returns its text. -/
theorem c8_witness :
    delete_doc [("a", "ta"), ("b", "tb")] "c" = none ∧
    delete_doc [("a", "ta"), ("b", "tb")] "a" = some ([("b", "tb")], "ta") :=
  ⟨(c8_delete_doc_fetch_first [("a", "ta"), ("b", "tb")] "c").1 rfl,
   (c8_delete_doc_fetch_first [("a", "ta"), ("b", "tb")] "a").2 "ta" rfl⟩

/-! ## Sparse ranking lemmas -/

theorem argsortAsc_sorted (v : List ℤ) :
    (argsortAsc v).Sorted (fun i j => v.getD i 0 ≤ v.getD j 0) := by
  haveI : IsTotal Nat (fun i j => v.getD i 0 ≤ v.getD j 0) :=
    ⟨fun a b => le_total _ _⟩
  haveI : IsTrans Nat (fun i j => v.getD i 0 ≤ v.getD j 0) :=
    ⟨fun a b c hab hbc => le_trans hab hbc⟩
  exact List.sorted_insertionSort _ _

theorem argsortAsc_length (v : List ℤ) : (argsortAsc v).length = v.length := by
  rw [argsortAsc, (List.perm_insertionSort _ _).length_eq, List.length_range]

/-- A sparse state whose query vector is all zeros for every query: every
query token is outside the vocabulary. -/
def rOOV : SparseRetrieval := ⟨fun _ => [0, 0], [[1, 2], [3, 4]]⟩

/-- The number of documents with nonzero similarity to the query. -/
def nNonzeroSim (r : SparseRetrieval) (q : String) : Nat :=
  ((r.p_embedding.map (fun row => dot (r.transform q) row)).filter
     (fun x => decide (x ≠ 0))).length

/-- A sparse state with two documents, exactly one of which has nonzero
similarity to the (arbitrary) query. -/
def rOneNonzero : SparseRetrieval := ⟨fun _ => [1], [[1], [0]]⟩

/-- C3: a query whose TF-IDF vector is all zeros (every token outside the
vocabulary contributes zero weight) makes `np.sum(query_vec) != 0` fail, so
`SparseRetrieval.get_relevant_doc` fails the assertion instead of returning
a result. -/
theorem c3_empty_query_vector_fails (r : SparseRetrieval) (q : String)
    (k : Nat) (h : ∀ x ∈ r.transform q, x = 0) :
    r.get_relevant_doc q k = none := by
  have hz : (r.transform q).sum = 0 := List.sum_eq_zero h
  simp only [SparseRetrieval.get_relevant_doc]
  rw [if_pos hz]

/-- Witness for C3 at a concrete all-zero query vector. -/
theorem c3_witness :
    (∀ x ∈ rOOV.transform "zz", x = 0) ∧
    rOOV.get_relevant_doc "zz" 1 = none :=
  ⟨by decide, c3_empty_query_vector_fails rOOV "zz" 1 (by decide)⟩

/-- C2 counterexample: two documents, one of nonzero similarity, k = 2, and
the precondition satisfied: the rank operation returns BOTH documents — the
zero-similarity one included — so the result length is min(k, #documents)
= 2 and not min(k, #nonzero-similarity documents) = 1. -/
theorem c2_counterexample :
    ∃ s i, rOneNonzero.get_relevant_doc "q" 2 = some (s, i) ∧
      s.length ≠ min 2 (nNonzeroSim rOneNonzero "q") :=
  ⟨[1, 0], [0, 1], by decide, by decide⟩

/-- C2 (amended): for every accepted query and every k, the single-query rank
returns its scores in non-increasing order, and the number of returned
results is min(k, total number of documents) — the code never filters out
zero-similarity documents. -/
theorem c2_rank_sorted_and_length (r : SparseRetrieval) (q : String) (k : Nat)
    (h : (r.transform q).sum ≠ 0) :
    ∃ s i, r.get_relevant_doc q k = some (s, i) ∧
      s.Sorted (fun a b => a ≥ b) ∧
      s.length = min k r.p_embedding.length := by
  simp only [SparseRetrieval.get_relevant_doc]
  rw [if_neg h]
  refine ⟨_, _, rfl, ?_, ?_⟩
  · have hmap : ((argsortAsc (r.p_embedding.map
        (fun row => dot (r.transform q) row))).map
          (fun i => (r.p_embedding.map
            (fun row => dot (r.transform q) row)).getD i 0)).Sorted (· ≤ ·) :=
      List.Pairwise.map _ (fun a b hab => hab) (argsortAsc_sorted _)
    have hrev := List.pairwise_reverse.mpr hmap
    rw [← List.map_reverse] at hrev
    exact hrev.sublist (List.take_sublist _ _)
  · rw [List.length_take, List.length_map, List.length_reverse,
        argsortAsc_length, List.length_map]

/-- Witness for C2 (amended) at a concrete accepted query. -/
theorem c2_witness :
    (rOneNonzero.transform "q").sum ≠ 0 ∧
    (∃ s i, rOneNonzero.get_relevant_doc "q" 3 = some (s, i) ∧
      s.Sorted (fun a b => a ≥ b) ∧
      s.length = min 3 rOneNonzero.p_embedding.length) :=
  ⟨by decide, c2_rank_sorted_and_length rOneNonzero "q" 3 (by decide)⟩

/-- C5: for a single accepted query q, the bulk rank operation on [q] passes
the same nonzero check and returns exactly the singletons of the scores and
indices produced by the single-query rank operation with the same k. -/
theorem c5_bulk_single_equiv (r : SparseRetrieval) (q : String) (k : Nat)
    (h : (r.transform q).sum ≠ 0) :
    ∃ s i, r.get_relevant_doc q k = some (s, i) ∧
      r.get_relevant_doc_bulk [q] k = some ([s], [i]) := by
  have hb : (([q].map r.transform).map List.sum).sum ≠ 0 := by simpa using h
  simp only [SparseRetrieval.get_relevant_doc,
    SparseRetrieval.get_relevant_doc_bulk]
  rw [if_neg h, if_neg hb]
  exact ⟨_, _, rfl, rfl⟩

/-- Witness for C5 at a concrete accepted query. -/
theorem c5_witness :
    (rOneNonzero.transform "q").sum ≠ 0 ∧
    (∃ s i, rOneNonzero.get_relevant_doc "q" 1 = some (s, i) ∧
      rOneNonzero.get_relevant_doc_bulk ["q"] 1 = some ([s], [i])) :=
  ⟨by decide, c5_bulk_single_equiv rOneNonzero "q" 1 (by decide)⟩

/-! ## retrieve_split processes only the first query -/

theorem mapM_option_congr {α β : Type} {f g : α → Option β} :
    ∀ {l : List α}, (∀ a ∈ l, f a = g a) → l.mapM f = l.mapM g := by
  intro l
  induction l with
  | nil => intro; rfl
  | cons a r ih =>
    intro h
    rw [List.mapM_cons, List.mapM_cons, h a (List.mem_cons_self a r),
        ih (fun x hx => h x (List.mem_cons_of_mem _ hx))]

/-- C10: `retrieve_split` returns from inside its per-example loop, so on any
dataset with at least one example its output equals its output on the
one-example dataset holding only the first example — every record is derived
from the first query's retrieved contexts, however many queries follow. -/
theorem c10_retrieve_split_first_query_only (es : String → Nat → List Hit)
    (e : QAExample) (rest : List QAExample) (topk : Nat) :
    ElasticRetrieval.retrieve_split es (e :: rest) topk =
      ElasticRetrieval.retrieve_split es [e] topk := by
  simp only [ElasticRetrieval.retrieve_split,
    ElasticRetrieval.get_relevant_doc_bulk, List.map_cons, List.map_nil,
    List.flatten_cons, List.flatten_nil, List.headD_cons, List.append_nil]
  apply mapM_option_congr
  intro p hp
  rcases p with ⟨i, ctx⟩
  have hi := (List.mem_enum hp).1
  rw [List.length_map, List.length_take] at hi
  have hlen : i < ((es e.question topk).map (fun h => IdxEntry.id h.id)
      ++ [IdxEntry.lst []]).length := by
    rw [List.length_append, List.length_map]
    simp only [List.length_cons, List.length_nil]
    omega
  rw [List.getElem?_append_left hlen]

/-! ## Idempotence of preprocess: normal forms after whitespace collapse -/

/-- Every whitespace character of the list is a plain space. -/
def wsBlank (l : List Char) : Prop := ∀ c ∈ l, pyWs c = true → c = ' '

/-- No two adjacent characters are both whitespace. -/
def noAdjWs (l : List Char) : Prop :=
  List.Chain' (fun a b => ¬(pyWs a = true ∧ pyWs b = true)) l

theorem wsBlank_collapseWs (l : List Char) : wsBlank (collapseWs l) := by
  induction l with
  | nil => intro c hc; simp [collapseWs] at hc
  | cons a r ih =>
    intro c hc hw
    simp only [collapseWs] at hc
    by_cases ha : pyWs a = true
    · rw [if_pos ha] at hc
      by_cases hh : (collapseWs r).head? = some ' '
      · rw [if_pos hh] at hc
        exact ih c hc hw
      · rw [if_neg hh] at hc
        rcases List.mem_cons.mp hc with rfl | hc'
        · rfl
        · exact ih c hc' hw
    · rw [if_neg ha] at hc
      rcases List.mem_cons.mp hc with rfl | hc'
      · exact absurd hw ha
      · exact ih c hc' hw

theorem noAdjWs_collapseWs (l : List Char) : noAdjWs (collapseWs l) := by
  induction l with
  | nil => simp [collapseWs, noAdjWs]
  | cons a r ih =>
    simp only [collapseWs, noAdjWs]
    by_cases ha : pyWs a = true
    · rw [if_pos ha]
      by_cases hh : (collapseWs r).head? = some ' '
      · rw [if_pos hh]
        exact ih
      · rw [if_neg hh]
        refine List.chain'_cons'.mpr ⟨?_, ih⟩
        intro y hy hcontra
        have hy' : y = ' ' :=
          wsBlank_collapseWs r y (List.mem_of_mem_head? hy) hcontra.2
        subst hy'
        exact hh (Option.mem_def.mp hy)
    · rw [if_neg ha]
      exact List.chain'_cons'.mpr ⟨fun y _ hcontra => ha hcontra.1, ih⟩

theorem collapseWs_eq_self : ∀ {l : List Char}, wsBlank l → noAdjWs l →
    collapseWs l = l := by
  intro l
  induction l with
  | nil => intro _ _; rfl
  | cons a r ih =>
    intro hb hc
    have hbr : wsBlank r := fun c hcr hw => hb c (List.mem_cons_of_mem _ hcr) hw
    have hcc := List.chain'_cons'.mp hc
    have hr : collapseWs r = r := ih hbr hcc.2
    simp only [collapseWs]
    by_cases ha : pyWs a = true
    · have ha' : a = ' ' := hb a (List.mem_cons_self _ _) ha
      have hh : ¬ (collapseWs r).head? = some ' ' := by
        rw [hr]
        cases r with
        | nil => simp
        | cons y t =>
          simp only [List.head?_cons]
          intro hsome
          have hy : y = ' ' := by injection hsome
          exact hcc.1 y (Option.mem_def.mpr rfl) ⟨ha, by rw [hy]; decide⟩
      rw [if_pos ha, if_neg hh, hr, ha']
    · rw [if_neg ha, hr]

theorem lstrip_lstrip (l : List Char) : lstrip (lstrip l) = lstrip l := by
  simp only [lstrip]
  induction l with
  | nil => rfl
  | cons c r ih =>
    rw [List.dropWhile_cons]
    by_cases h : pyWs c = true
    · rw [if_pos h]
      exact ih
    · rw [if_neg h, List.dropWhile_cons, if_neg h]

theorem rstrip_cons_of_cons {a d : Char} {r t : List Char}
    (h : rstrip r = d :: t) : rstrip (a :: r) = a :: d :: t := by
  simp only [rstrip, h]

theorem rstrip_eq_nil : ∀ {l : List Char},
    (rstrip l = [] ↔ ∀ c ∈ l, pyWs c = true) := by
  intro l
  induction l with
  | nil => simp [rstrip]
  | cons a r ih =>
    constructor
    · intro h
      rcases hr : rstrip r with _ | ⟨d, t⟩
      · simp only [rstrip, hr] at h
        by_cases ha : pyWs a = true
        · intro c hc
          rcases List.mem_cons.mp hc with rfl | hc'
          · exact ha
          · exact ih.mp hr c hc'
        · rw [if_neg ha] at h
          cases h
      · rw [rstrip_cons_of_cons hr] at h
        simp at h
    · intro hall
      have hr : rstrip r = [] :=
        ih.mpr fun c hc => hall c (List.mem_cons_of_mem _ hc)
      simp only [rstrip, hr]
      rw [if_pos (hall a (List.mem_cons_self _ _))]

theorem rstrip_head : ∀ {l : List Char} {d : Char} {t : List Char},
    rstrip l = d :: t → l.head? = some d := by
  intro l
  induction l with
  | nil => intro d t h; cases h
  | cons a r _ =>
    intro d t h
    rcases hr : rstrip r with _ | ⟨d', t'⟩
    · simp only [rstrip, hr] at h
      by_cases ha : pyWs a = true
      · rw [if_pos ha] at h
        cases h
      · rw [if_neg ha] at h
        injection h with h1 _
        subst h1
        rfl
    · simp only [rstrip, hr] at h
      injection h with h1 _
      subst h1
      rfl

theorem mem_rstrip : ∀ {l : List Char} {c : Char}, c ∈ rstrip l → c ∈ l := by
  intro l
  induction l with
  | nil => intro c h; simp [rstrip] at h
  | cons a r ih =>
    intro c h
    rcases hr : rstrip r with _ | ⟨d, t⟩
    · simp only [rstrip, hr] at h
      by_cases ha : pyWs a = true
      · rw [if_pos ha] at h
        cases h
      · rw [if_neg ha] at h
        rcases List.mem_cons.mp h with rfl | h'
        · exact List.mem_cons_self _ _
        · cases h'
    · simp only [rstrip, hr] at h
      rcases List.mem_cons.mp h with rfl | h'
      · exact List.mem_cons_self _ _
      · exact List.mem_cons_of_mem _ (ih (by rw [hr]; exact h'))

theorem noAdjWs_rstrip : ∀ {l : List Char}, noAdjWs l → noAdjWs (rstrip l) := by
  intro l
  induction l with
  | nil => intro h; exact h
  | cons a r ih =>
    intro h
    have hc := List.chain'_cons'.mp h
    rcases hr : rstrip r with _ | ⟨d, t⟩
    · simp only [noAdjWs, rstrip, hr]
      by_cases ha : pyWs a = true
      · rw [if_pos ha]
        exact List.chain'_nil
      · rw [if_neg ha]
        exact List.chain'_singleton _
    · simp only [noAdjWs, rstrip, hr]
      refine List.chain'_cons.mpr ⟨?_, ?_⟩
      · have hd : r.head? = some d := rstrip_head hr
        exact hc.1 d (by rw [hd]; rfl)
      · have hrest := ih hc.2
        rw [hr] at hrest
        exact hrest

theorem rstrip_rstrip : ∀ (l : List Char), rstrip (rstrip l) = rstrip l := by
  intro l
  induction l with
  | nil => rfl
  | cons a r ih =>
    rcases hr : rstrip r with _ | ⟨d, t⟩
    · simp only [rstrip, hr]
      by_cases ha : pyWs a = true
      · rw [if_pos ha]
        rfl
      · rw [if_neg ha]
        simp only [rstrip]
        rw [if_neg ha]
    · have h2 : rstrip (d :: t) = d :: t := by rw [← hr, ih]
      rw [rstrip_cons_of_cons hr]
      exact rstrip_cons_of_cons h2

theorem lstrip_rstrip_comm : ∀ (l : List Char),
    lstrip (rstrip l) = rstrip (lstrip l) := by
  intro l
  induction l with
  | nil => rfl
  | cons a r ih =>
    by_cases ha : pyWs a = true
    · have hls : lstrip (a :: r) = lstrip r := by
        simp only [lstrip, List.dropWhile_cons, if_pos ha]
      rcases hr : rstrip r with _ | ⟨d, t⟩
      · have hra : rstrip (a :: r) = [] := by
          simp only [rstrip, hr]
          rw [if_pos ha]
        rw [hra, hls]
        have hlr : lstrip r = [] :=
          List.dropWhile_eq_nil_iff.mpr (rstrip_eq_nil.mp hr)
        rw [hlr]
        rfl
      · have hra : rstrip (a :: r) = a :: d :: t := by simp only [rstrip, hr]
        rw [hra, hls]
        have h1 : lstrip (a :: d :: t) = lstrip (d :: t) := by
          simp only [lstrip, List.dropWhile_cons, if_pos ha]
        rw [h1, ← hr, ih]
    · have hls : lstrip (a :: r) = a :: r := by
        simp only [lstrip, List.dropWhile_cons, if_neg ha]
      rw [hls]
      rcases hr : rstrip r with _ | ⟨d, t⟩
      · have hra : rstrip (a :: r) = [a] := by
          simp only [rstrip, hr]
          rw [if_neg ha]
        rw [hra]
        simp only [lstrip, List.dropWhile_cons, if_neg ha]
      · have hra : rstrip (a :: r) = a :: d :: t := by simp only [rstrip, hr]
        rw [hra]
        simp only [lstrip, List.dropWhile_cons, if_neg ha]

theorem pyStrip_idem (l : List Char) : pyStrip (pyStrip l) = pyStrip l := by
  simp only [pyStrip]
  rw [lstrip_rstrip_comm (lstrip l), lstrip_lstrip, rstrip_rstrip]

theorem map_eq_self {α : Type} {f : α → α} :
    ∀ {l : List α}, (∀ a ∈ l, f a = a) → l.map f = l := by
  intro l
  induction l with
  | nil => intro _; rfl
  | cons a r ih =>
    intro h
    rw [List.map_cons, h a (List.mem_cons_self _ _),
        ih fun x hx => h x (List.mem_cons_of_mem _ hx)]

theorem subNewline_eq_self {l : List Char} (h : '\n' ∉ l) :
    subNewline l = l :=
  map_eq_self fun a ha =>
    if_neg fun hc : a = '\n' => h (by rw [← hc]; exact ha)

theorem subHash_eq_self {l : List Char} (h : '#' ∉ l) : subHash l = l :=
  map_eq_self fun a ha =>
    if_neg fun hc : a = '#' => h (by rw [← hc]; exact ha)

theorem subBackslashN_eq_self : ∀ {l : List Char}, '\\' ∉ l →
    subBackslashN l = l := by
  intro l
  induction l using subBackslashN.induct with
  | case1 rest _ =>
    intro h
    exact absurd (List.mem_cons_self _ _) h
  | case2 c rest hne ih =>
    intro h
    rw [subBackslashN.eq_2 c rest hne,
        ih fun hm => h (List.mem_cons_of_mem _ hm)]
  | case3 =>
    intro _
    rfl

theorem mem_collapseWs : ∀ {l : List Char} {c : Char},
    c ∈ collapseWs l → c = ' ' ∨ c ∈ l := by
  intro l
  induction l with
  | nil => intro c h; simp [collapseWs] at h
  | cons a r ih =>
    intro c h
    simp only [collapseWs] at h
    by_cases ha : pyWs a = true
    · rw [if_pos ha] at h
      by_cases hh : (collapseWs r).head? = some ' '
      · rw [if_pos hh] at h
        rcases ih h with h' | h'
        · exact Or.inl h'
        · exact Or.inr (List.mem_cons_of_mem _ h')
      · rw [if_neg hh] at h
        rcases List.mem_cons.mp h with rfl | h'
        · exact Or.inl rfl
        · rcases ih h' with h'' | h''
          · exact Or.inl h''
          · exact Or.inr (List.mem_cons_of_mem _ h'')
    · rw [if_neg ha] at h
      rcases List.mem_cons.mp h with rfl | h'
      · exact Or.inr (List.mem_cons_self _ _)
      · rcases ih h' with h'' | h''
        · exact Or.inl h''
        · exact Or.inr (List.mem_cons_of_mem _ h'')

theorem mem_lstrip {l : List Char} {c : Char} (h : c ∈ lstrip l) : c ∈ l :=
  List.Sublist.mem h (List.dropWhile_sublist _)

/-- Every character of a preprocessed text is in the allow-list. -/
theorem mem_preprocess {l : List Char} {c : Char} (h : c ∈ preprocess l) :
    allowedChar c = true := by
  have h1 : c ∈ collapseWs (filterAllowed (subHash (subBackslashN
      (subNewline l)))) := mem_lstrip (mem_rstrip h)
  rcases mem_collapseWs h1 with rfl | h2
  · decide
  · exact List.of_mem_filter h2

theorem wsBlank_preprocess (l : List Char) : wsBlank (preprocess l) :=
  fun c hc hw => wsBlank_collapseWs _ c (mem_lstrip (mem_rstrip hc)) hw

theorem noAdjWs_preprocess (l : List Char) : noAdjWs (preprocess l) :=
  noAdjWs_rstrip
    (List.Chain'.suffix (noAdjWs_collapseWs _) (List.dropWhile_suffix _))

/-- C9: the text normalization is idempotent — applying `preprocess` twice
yields the same result as applying it once.  A normalized text contains no
newline, no backslash and no hash, only allow-listed characters, all its
whitespace is single interior spaces, and it is stripped; each of the five
substitutions and the strip therefore fixes it. -/
theorem c9_preprocess_idem (l : List Char) :
    preprocess (preprocess l) = preprocess l := by
  have hnl : '\n' ∉ preprocess l := fun hm =>
    absurd (wsBlank_preprocess l '\n' hm (by decide)) (by decide)
  have hbs : '\\' ∉ preprocess l := fun hm =>
    absurd (mem_preprocess hm) (by decide)
  have hhash : '#' ∉ preprocess l := fun hm =>
    absurd (mem_preprocess hm) (by decide)
  have h4 : filterAllowed (preprocess l) = preprocess l :=
    List.filter_eq_self.mpr fun a ha => mem_preprocess ha
  have h5 : collapseWs (preprocess l) = preprocess l :=
    collapseWs_eq_self (wsBlank_preprocess l) (noAdjWs_preprocess l)
  have h6 : pyStrip (preprocess l) = preprocess l := pyStrip_idem _
  show pyStrip (collapseWs (filterAllowed (subHash (subBackslashN
    (subNewline (preprocess l)))))) = preprocess l
  rw [subNewline_eq_self hnl, subBackslashN_eq_self hbs,
      subHash_eq_self hhash, h4, h5, h6]
